import Mathlib

/-!
Verification of the Webbly CMS search-and-cache subsystem
(`webbly/search.py`, `webbly/cache.py`) against its specification.

Strings are modelled as `List Char`; Python's `re` operations used by the
source (`[^\w\s-]` removal, `\s+` collapsing, `<[^>]+>` tag stripping,
case-insensitive literal substitution) are embedded as structurally
recursive functions on character lists, restricted to the ASCII fragment
of the character classes involved.
-/

namespace Webbly

/-- Python whitespace class `\s` (ASCII fragment): space, tab, newline,
carriage return, vertical tab, form feed. -/
def isPySpace (c : Char) : Bool :=
  c = ' ' || c = '\t' || c = '\n' || c = '\r' || c = '\x0b' || c = '\x0c'

/-- Python word-character class `\w` (ASCII fragment): letters, digits and
the underscore. -/
def isPyWord (c : Char) : Bool :=
  c.isAlphanum || c = '_'

/-- Element-wise lowercasing, modelling `str.lower()` on ASCII text. -/
def lowerStr (s : List Char) : List Char :=
  s.map Char.toLower

/-- Deletion of characters outside `\w`, `\s` and `-`, modelling
`re.sub(r'[^\w\s-]', '', query)` from `Search._normalize_query`. -/
def removeSpecial (s : List Char) : List Char :=
  s.filter (fun c => isPyWord c || isPySpace c || c = '-')

/-- Scanner for `re.sub(r'\s+', ' ', query)`: the flag records whether the
previous character belonged to a whitespace run, so each maximal run emits
exactly one space. -/
def collapseWSAux (prevSpace : Bool) : List Char → List Char
  | [] => []
  | c :: rest =>
    if isPySpace c then
      if prevSpace then collapseWSAux true rest
      else ' ' :: collapseWSAux true rest
    else c :: collapseWSAux false rest

/-- Replacement of each maximal whitespace run by a single space, modelling
`re.sub(r'\s+', ' ', query)` from `Search._normalize_query`. -/
def collapseWS (s : List Char) : List Char :=
  collapseWSAux false s

/-- Removal of leading and trailing whitespace, modelling `str.strip()`. -/
def stripWS (s : List Char) : List Char :=
  ((s.dropWhile isPySpace).reverse.dropWhile isPySpace).reverse

/-- Query normalization, modelling `Search._normalize_query`: lowercase,
remove characters matching `[^\w\s-]`, collapse whitespace runs to single
spaces, strip leading/trailing whitespace. -/
def normalize_query (q : List Char) : List Char :=
  stripWS (collapseWS (removeSpecial (lowerStr q)))

/-! Character-level facts about `Char.toLower`. -/

lemma char_toNat_ofNat_valid (m : Nat) (h : m.isValidChar) : (Char.ofNat m).toNat = m := by
  rw [Char.ofNat, dif_pos h]
  rfl

lemma char_isUpper_iff (c : Char) : c.isUpper = true ↔ 65 ≤ c.toNat ∧ c.toNat ≤ 90 := by
  simp only [Char.isUpper, Bool.and_eq_true, decide_eq_true_eq, ge_iff_le]
  exact Iff.rfl

lemma toLower_isUpper_false (c : Char) : (Char.toLower c).isUpper = false := by
  simp only [Char.toLower]
  split
  · rename_i h
    have hv : (c.toNat + 32).isValidChar := Or.inl (by omega)
    have ht : (Char.ofNat (c.toNat + 32)).toNat = c.toNat + 32 := char_toNat_ofNat_valid _ hv
    rw [Bool.eq_false_iff]
    intro hu
    rw [char_isUpper_iff] at hu
    omega
  · rename_i h
    rw [Bool.eq_false_iff]
    intro hu
    rw [char_isUpper_iff] at hu
    exact h hu

lemma toLower_eq_self_of_not_upper (c : Char) (h : c.isUpper = false) : Char.toLower c = c := by
  simp only [Char.toLower]
  split
  · rename_i h2
    exact absurd (char_isUpper_iff c |>.mpr h2) (by simp [h])
  · rfl

lemma toLower_idem (c : Char) : Char.toLower (Char.toLower c) = Char.toLower c :=
  toLower_eq_self_of_not_upper _ (toLower_isUpper_false c)

/-! Generic `dropWhile` facts. -/

lemma head?_dropWhile_not {α : Type} (p : α → Bool) :
    ∀ (l : List α) (d : α), (l.dropWhile p).head? = some d → p d = false := by
  intro l
  induction l with
  | nil => intro d h; simp [List.dropWhile] at h
  | cons x rest ih =>
    intro d h
    by_cases hx : p x = true
    · rw [List.dropWhile_cons_of_pos hx] at h
      exact ih d h
    · rw [List.dropWhile_cons_of_neg hx] at h
      simp only [List.head?_cons, Option.some.injEq] at h
      subst h
      exact Bool.eq_false_iff.mpr hx

lemma dropWhile_eq_self_of_head {α : Type} (p : α → Bool) (l : List α)
    (h : ∀ d, l.head? = some d → p d = false) : l.dropWhile p = l := by
  cases l with
  | nil => rfl
  | cons x rest =>
    have := h x (by simp)
    rw [List.dropWhile_cons_of_neg (by simp [this])]

/-! Facts about the whitespace-collapsing scanner. -/

lemma mem_collapseWSAux : ∀ (l : List Char) (b : Bool) (c : Char),
    c ∈ collapseWSAux b l → c = ' ' ∨ (c ∈ l ∧ isPySpace c = false) := by
  intro l
  induction l with
  | nil => intro b c h; simp [collapseWSAux] at h
  | cons x rest ih =>
    intro b c h
    cases hx : isPySpace x with
    | true =>
      cases b with
      | true =>
        rw [show collapseWSAux true (x :: rest) = collapseWSAux true rest by
          simp [collapseWSAux, hx]] at h
        rcases ih true c h with h1 | ⟨h1, h2⟩
        · exact Or.inl h1
        · exact Or.inr ⟨List.mem_cons_of_mem _ h1, h2⟩
      | false =>
        rw [show collapseWSAux false (x :: rest) = ' ' :: collapseWSAux true rest by
          simp [collapseWSAux, hx]] at h
        rcases List.mem_cons.mp h with h1 | h1
        · exact Or.inl h1
        · rcases ih true c h1 with h2 | ⟨h2, h3⟩
          · exact Or.inl h2
          · exact Or.inr ⟨List.mem_cons_of_mem _ h2, h3⟩
    | false =>
      rw [show collapseWSAux b (x :: rest) = x :: collapseWSAux false rest by
        simp [collapseWSAux, hx]] at h
      rcases List.mem_cons.mp h with h1 | h1
      · subst h1
        exact Or.inr ⟨List.mem_cons_self _ _, hx⟩
      · rcases ih false c h1 with h2 | ⟨h2, h3⟩
        · exact Or.inl h2
        · exact Or.inr ⟨List.mem_cons_of_mem _ h2, h3⟩

lemma head?_collapseWSAux_true : ∀ (l : List Char) (d : Char),
    (collapseWSAux true l).head? = some d → isPySpace d = false := by
  intro l
  induction l with
  | nil => intro d h; simp [collapseWSAux] at h
  | cons x rest ih =>
    intro d h
    cases hx : isPySpace x with
    | true =>
      rw [show collapseWSAux true (x :: rest) = collapseWSAux true rest by
        simp [collapseWSAux, hx]] at h
      exact ih d h
    | false =>
      rw [show collapseWSAux true (x :: rest) = x :: collapseWSAux false rest by
        simp [collapseWSAux, hx]] at h
      simp only [List.head?_cons, Option.some.injEq] at h
      subst h
      exact hx

lemma chain_collapseWSAux : ∀ (l : List Char) (b : Bool),
    List.Chain' (fun a b => isPySpace a = true → isPySpace b = false) (collapseWSAux b l) := by
  intro l
  induction l with
  | nil => intro b; simp [collapseWSAux]
  | cons x rest ih =>
    intro b
    cases hx : isPySpace x with
    | true =>
      cases b with
      | true =>
        rw [show collapseWSAux true (x :: rest) = collapseWSAux true rest by
          simp [collapseWSAux, hx]]
        exact ih true
      | false =>
        rw [show collapseWSAux false (x :: rest) = ' ' :: collapseWSAux true rest by
          simp [collapseWSAux, hx]]
        rw [List.chain'_cons']
        refine ⟨?_, ih true⟩
        intro y hy _
        exact head?_collapseWSAux_true rest y hy
    | false =>
      rw [show collapseWSAux b (x :: rest) = x :: collapseWSAux false rest by
        simp [collapseWSAux, hx]]
      rw [List.chain'_cons']
      refine ⟨?_, ih false⟩
      intro y _ hsx
      exact absurd hsx (by simp [hx])

lemma collapseWSAux_true_eq_of_head (l : List Char)
    (h : ∀ d, l.head? = some d → isPySpace d = false) :
    collapseWSAux true l = collapseWSAux false l := by
  cases l with
  | nil => rfl
  | cons x rest =>
    have hx := h x (by simp)
    simp [collapseWSAux, hx]

lemma collapseWS_fixed : ∀ (l : List Char),
    (∀ c ∈ l, isPySpace c = true → c = ' ') →
    List.Chain' (fun a b => isPySpace a = true → isPySpace b = false) l →
    collapseWS l = l := by
  intro l
  induction l with
  | nil => intro _ _; rfl
  | cons x rest ih =>
    intro hmem hchain
    rw [List.chain'_cons'] at hchain
    cases hx : isPySpace x with
    | true =>
      have hxs : x = ' ' := hmem x (List.mem_cons_self _ _) hx
      have hhead : ∀ d, rest.head? = some d → isPySpace d = false := by
        intro d hd
        exact hchain.1 d hd hx
      show collapseWSAux false (x :: rest) = x :: rest
      rw [show collapseWSAux false (x :: rest) = ' ' :: collapseWSAux true rest by
        simp [collapseWSAux, hx]]
      rw [collapseWSAux_true_eq_of_head rest hhead]
      have := ih (fun c hc => hmem c (List.mem_cons_of_mem _ hc)) hchain.2
      rw [show collapseWSAux false rest = collapseWS rest from rfl, this, hxs]
    | false =>
      show collapseWSAux false (x :: rest) = x :: rest
      rw [show collapseWSAux false (x :: rest) = x :: collapseWSAux false rest by
        simp [collapseWSAux, hx]]
      have := ih (fun c hc => hmem c (List.mem_cons_of_mem _ hc)) hchain.2
      rw [show collapseWSAux false rest = collapseWS rest from rfl, this]

/-! Facts about `stripWS`. -/

lemma stripWS_prefix_dropWhile (l : List Char) :
    stripWS l <+: l.dropWhile isPySpace := by
  unfold stripWS
  have h : ((l.dropWhile isPySpace).reverse.dropWhile isPySpace).reverse.reverse <:+
      (l.dropWhile isPySpace).reverse := by
    rw [List.reverse_reverse]
    exact List.dropWhile_suffix isPySpace
  exact List.reverse_suffix.mp h

lemma stripWS_infix_self (l : List Char) : stripWS l <:+: l :=
  (stripWS_prefix_dropWhile l).isInfix.trans (List.dropWhile_suffix isPySpace).isInfix

lemma mem_stripWS (l : List Char) (c : Char) (h : c ∈ stripWS l) : c ∈ l :=
  (stripWS_infix_self l).sublist.subset h

lemma head?_stripWS (l : List Char) (d : Char) (h : (stripWS l).head? = some d) :
    isPySpace d = false := by
  rcases (stripWS_prefix_dropWhile l) with ⟨t, ht⟩
  have hd : (l.dropWhile isPySpace).head? = some d := by
    rw [← ht]
    cases hs : stripWS l with
    | nil => rw [hs] at h; simp at h
    | cons x rest =>
      rw [hs] at h
      simp only [List.head?_cons, Option.some.injEq] at h
      simp [h]
  exact head?_dropWhile_not isPySpace l d hd

lemma getLast?_stripWS (l : List Char) (d : Char) (h : (stripWS l).getLast? = some d) :
    isPySpace d = false := by
  have hrev : (stripWS l).reverse.head? = some d := by
    rw [List.head?_reverse]
    exact h
  unfold stripWS at hrev
  rw [List.reverse_reverse] at hrev
  exact head?_dropWhile_not isPySpace _ d hrev

lemma stripWS_fixed (l : List Char)
    (hh : ∀ d, l.head? = some d → isPySpace d = false)
    (hl : ∀ d, l.getLast? = some d → isPySpace d = false) : stripWS l = l := by
  unfold stripWS
  rw [dropWhile_eq_self_of_head isPySpace l hh]
  rw [dropWhile_eq_self_of_head isPySpace l.reverse
    (by intro d hd; rw [List.head?_reverse] at hd; exact hl d hd)]
  exact List.reverse_reverse l

/-! Invariants of the normalizer output. -/

lemma norm_chars (q : List Char) : ∀ c ∈ normalize_query q,
    Char.toLower c = c ∧ (isPyWord c || isPySpace c || c = '-') = true ∧
    (isPySpace c = true → c = ' ') := by
  intro c hc
  have hx : c ∈ collapseWS (removeSpecial (lowerStr q)) := mem_stripWS _ c hc
  rcases mem_collapseWSAux _ false c hx with h1 | ⟨h1, h2⟩
  · subst h1
    refine ⟨by decide, by decide, fun _ => rfl⟩
  · rcases List.mem_filter.mp h1 with ⟨h3, h4⟩
    rcases List.mem_map.mp h3 with ⟨d, _, hd⟩
    refine ⟨?_, h4, ?_⟩
    · rw [← hd]
      exact toLower_idem d
    · intro hs
      rw [hs] at h2
      exact absurd h2 (by simp)

lemma norm_chain (q : List Char) :
    List.Chain' (fun a b => isPySpace a = true → isPySpace b = false) (normalize_query q) :=
  List.Chain'.infix (chain_collapseWSAux (removeSpecial (lowerStr q)) false)
    (stripWS_infix_self (collapseWS (removeSpecial (lowerStr q))))

/-- C8: text normalization is idempotent: for every string `s`,
`normalize(normalize(s)) = normalize(s)`. -/
theorem normalize_query_idempotent (q : List Char) :
    normalize_query (normalize_query q) = normalize_query q := by
  have hchars := norm_chars q
  have h1 : lowerStr (normalize_query q) = normalize_query q := by
    unfold lowerStr
    rw [List.map_congr_left (fun c hc => (hchars c hc).1)]
    exact List.map_id' _
  have h2 : removeSpecial (normalize_query q) = normalize_query q :=
    List.filter_eq_self.mpr (fun c hc => (hchars c hc).2.1)
  have h3 : collapseWS (normalize_query q) = normalize_query q :=
    collapseWS_fixed _ (fun c hc => (hchars c hc).2.2) (norm_chain q)
  have h4 : stripWS (normalize_query q) = normalize_query q :=
    stripWS_fixed _ (fun d hd => head?_stripWS _ d hd) (fun d hd => getLast?_stripWS _ d hd)
  show stripWS (collapseWS (removeSpecial (lowerStr (normalize_query q)))) = normalize_query q
  rw [h1, h2, h3, h4]

/-- C7 (counterexample): the claim restricts the normalizer's output
alphabet to `[a-z0-9\s-]`, but the source keeps every `\w` character, so
the underscore survives normalization although it lies outside that
class. -/
theorem normalize_query_underscore_counterexample :
    normalize_query ['_'] = ['_'] ∧
    ¬(('a' ≤ '_' ∧ '_' ≤ 'z') ∨ ('0' ≤ '_' ∧ '_' ≤ '9') ∨
      isPySpace '_' = true ∨ '_' = '-') := by
  constructor
  · decide
  · decide

/-- C7 (amended): for every input string the normalizer's output is a
lowercase string over `[a-z0-9_\s-]` (the `\w` class keeps the
underscore), the only whitespace character in the output is a single
space, runs of whitespace are collapsed (no two adjacent spaces), and
leading/trailing whitespace is trimmed; the empty input yields the empty
output. -/
theorem normalize_query_char_class_collapsed_trimmed (s : List Char) :
    (∀ c ∈ normalize_query s,
      (c.isLower || c.isDigit || c = '_' || c = '-' || c = ' ') = true) ∧
    List.Chain' (fun a b => a = ' ' → b ≠ ' ') (normalize_query s) ∧
    (∀ d, (normalize_query s).head? = some d → d ≠ ' ') ∧
    (∀ d, (normalize_query s).getLast? = some d → d ≠ ' ') ∧
    normalize_query [] = [] := by
  refine ⟨?_, ?_, ?_, ?_, by decide⟩
  · intro c hc
    rcases norm_chars s c hc with ⟨hlow, hcls, hsp⟩
    have hup : c.isUpper = false := by
      rw [← hlow]
      exact toLower_isUpper_false c
    simp only [isPyWord, Char.isAlphanum, Char.isAlpha, hup, Bool.false_or,
      Bool.or_eq_true, decide_eq_true_eq] at hcls
    rcases hcls with (((h | h) | h) | h) | h
    · simp [h]
    · simp [h]
    · simp [h]
    · simp [hsp h]
    · simp [h]
  · refine (norm_chain s).imp ?_
    intro a b hab ha
    intro hb
    have : isPySpace a = true := by rw [ha]; decide
    rw [hb] at hab
    exact absurd (hab this) (by simp [isPySpace])
  · intro d hd
    intro he
    have := head?_stripWS _ d hd
    rw [he] at this
    exact absurd this (by simp [isPySpace])
  · intro d hd
    intro he
    have := getLast?_stripWS _ d hd
    rw [he] at this
    exact absurd this (by simp [isPySpace])

/-- Witness for the amended C7 theorem at a concrete input. -/
theorem normalize_query_char_class_witness :
    ('a'.isLower || 'a'.isDigit || 'a' = '_' || 'a' = '-' || 'a' = ' ') = true ∧
    'a' ≠ ' ' ∧ '_' ≠ ' ' := by
  have h := normalize_query_char_class_collapsed_trimmed " A!  b_ ".toList
  exact ⟨h.1 'a' (by decide), h.2.2.1 'a' (by decide), h.2.2.2.1 '_' (by decide)⟩

/-! Whitespace splitting, modelling Python `str.split()` with no
arguments: maximal whitespace runs separate the tokens and empty tokens
are discarded.  The accumulator holds the current token reversed. -/

def splitWSAux : List Char → List Char → List (List Char)
  | acc, [] => if acc = [] then [] else [acc.reverse]
  | acc, c :: rest =>
    if isPySpace c then
      if acc = [] then splitWSAux [] rest
      else acc.reverse :: splitWSAux [] rest
    else splitWSAux (c :: acc) rest

/-- Python `str.split()` on whitespace. -/
def splitWS (s : List Char) : List (List Char) :=
  splitWSAux [] s

/-! HTML tag stripping, modelling `re.sub(r'<[^>]+>', '', text)`.  The
scanner buffers the characters following a `<` (reversed); a following
`>` with a nonempty buffer deletes the whole span, a `>` arriving
immediately after `<` matches nothing (the pattern needs at least one
inner character), and an unterminated `<` is emitted verbatim. -/

def stripTagsAux : Option (List Char) → List Char → List Char
  | none, [] => []
  | some buf, [] => '<' :: buf.reverse
  | none, c :: rest =>
    if c = '<' then stripTagsAux (some []) rest
    else c :: stripTagsAux none rest
  | some buf, c :: rest =>
    if c = '>' then
      if buf = [] then '<' :: '>' :: stripTagsAux none rest
      else stripTagsAux none rest
    else stripTagsAux (some (c :: buf)) rest

/-- Removal of `<[^>]+>` tag spans, as used by `Search.get_excerpt` and
`Search._extract_keywords`. -/
def strip_tags (s : List Char) : List Char :=
  stripTagsAux none s

/-- Python `str.find` returning the first index at which `needle` occurs
in the argument, `none` standing for `-1`. -/
def pyFind (needle : List Char) : List Char → Option Nat
  | [] => if needle.isPrefixOf [] then some 0 else none
  | c :: t =>
    if needle.isPrefixOf (c :: t) then some 0
    else (pyFind needle t).map (· + 1)

/-- Python substring containment `needle in hay` (contiguous, literal). -/
def containsSub (needle : List Char) : List Char → Bool
  | [] => decide (needle = [])
  | c :: t => needle.isPrefixOf (c :: t) || containsSub needle t

/-- Python `str.replace` for a single-character pattern, replacing every
occurrence of `c` by `repl`. -/
def pyReplaceChar (s : List Char) (c : Char) (repl : List Char) : List Char :=
  (s.map (fun d => if d = c then repl else [d])).flatten

/-- Embedding of the escape line of `Search.highlight_query`:
`text.replace('&', '&amp;').replace('<', '<').replace('>', '>')`.  The
second and third `replace` calls substitute the characters `<` and `>`
by themselves, exactly as in the source. -/
def escapeStep (t : List Char) : List Char :=
  pyReplaceChar (pyReplaceChar (pyReplaceChar t '&' "&amp;".toList) '<' "<".toList)
    '>' ">".toList

/-- Case-insensitive anchored match of `term` at the front of `s`,
modelling a match of `re.compile(re.escape(term), re.IGNORECASE)`. -/
def ciMatchesAt (term s : List Char) : Bool :=
  decide (term.length ≤ s.length) && decide (lowerStr (s.take term.length) = lowerStr term)

/-- Left-to-right non-overlapping substitution wrapping each
case-insensitive occurrence of `term` in `<mark>...</mark>`, modelling
`pattern.sub(r'<mark>\1</mark>', highlighted)`; the counter skips the
characters of a match that were already emitted. -/
def subCIAux (term : List Char) : Nat → List Char → List Char
  | _, [] => []
  | k + 1, _ :: rest => subCIAux term k rest
  | 0, c :: rest =>
    if term ≠ [] ∧ ciMatchesAt term (c :: rest) = true then
      "<mark>".toList ++ (c :: rest).take term.length ++ "</mark>".toList ++
        subCIAux term (term.length - 1) rest
    else c :: subCIAux term 0 rest

/-- Highlighting of query terms, modelling `Search.highlight_query`. -/
def highlight_query (text query : List Char) : List Char :=
  if text = [] ∨ query = [] then text
  else
    (splitWS (normalize_query query)).foldl
      (fun acc term => subCIAux term 0 acc) (escapeStep text)

/-- C1: the claim states that no raw `<`/`>` from the input survives
unescaped, but the escape line replaces `<` and `>` by themselves, so the
input `<script>alert(1)</script>` keeps its literal `<script>` tag in the
highlighter output.  (The source's own comment announces HTML-entity
escaping, which the code does not perform.) -/
theorem highlight_query_keeps_raw_script_tag :
    containsSub "<script>".toList
      (highlight_query "<script>alert(1)</script>".toList "alert".toList) = true ∧
    highlight_query "<script>alert(1)</script>".toList "alert".toList =
      "<script><mark>alert</mark>(1)</script>".toList := by
  constructor
  · decide
  · decide

/-- Excerpt generation, modelling `Search.get_excerpt`: strip tags,
locate the normalized query inside the normalized stripped content, and
cut a window of radius `length / 2` around the match position. -/
def get_excerpt (content query : List Char) (length : Nat) : List Char × Bool :=
  if content = [] ∨ query = [] then ([], false)
  else
    match pyFind (normalize_query query) (normalize_query (strip_tags content)) with
    | none =>
      if (strip_tags content).length ≤ length then (strip_tags content, false)
      else ((strip_tags content).take length ++ "...".toList, true)
    | some pos =>
      ((if 0 < pos - length / 2 then "...".toList else []) ++
        ((strip_tags content).drop (pos - length / 2)).take
          (min (strip_tags content).length (pos + query.length + length / 2) -
            (pos - length / 2)) ++
        (if min (strip_tags content).length (pos + query.length + length / 2) <
            (strip_tags content).length then "...".toList else []),
        decide (min (strip_tags content).length (pos + query.length + length / 2) <
          (strip_tags content).length))

/-- Index one past the end of the window of stripped content selected by
`get_excerpt`, mirroring its branch structure; the truncation flag is
characterized against it. -/
def excerptEnd (content query : List Char) (length : Nat) : Nat :=
  if content = [] ∨ query = [] then (strip_tags content).length
  else
    match pyFind (normalize_query query) (normalize_query (strip_tags content)) with
    | none => min length (strip_tags content).length
    | some pos => min (strip_tags content).length (pos + query.length + length / 2)

/-- C3 (counterexample): with window 4 and query `abcdef` the excerpt has
length 11 > 4 + 6, and although content continued before the start of the
window (leading ellipsis), the truncation flag is false. -/
theorem get_excerpt_counterexample :
    (get_excerpt "xxxxxabcdef".toList "abcdef".toList 4).1.length = 11 ∧
    ¬((11 : Nat) ≤ 4 + 6) ∧
    "...".toList <+: (get_excerpt "xxxxxabcdef".toList "abcdef".toList 4).1 ∧
    (get_excerpt "xxxxxabcdef".toList "abcdef".toList 4).2 = false := by
  refine ⟨by decide, by decide, by decide, by decide⟩

/-- C3 (amended): the excerpt length is bounded by
`window + len(query) + 6` (the window can exceed `window` by the query
length), and the truncation flag is true iff the stripped content
continues past the end of the selected window (right side only; a
left-side continuation produces a leading ellipsis but does not set the
flag). -/
theorem get_excerpt_bound_and_flag (content query : List Char) (length : Nat) :
    (get_excerpt content query length).1.length ≤ length + query.length + 6 ∧
    ((get_excerpt content query length).2 = true ↔
      excerptEnd content query length < (strip_tags content).length) := by
  unfold get_excerpt excerptEnd
  by_cases hempty : content = [] ∨ query = []
  · simp [hempty]
  · simp only [hempty, if_false]
    rcases hfind : pyFind (normalize_query query) (normalize_query (strip_tags content)) with
      _ | pos
    · by_cases hlen : (strip_tags content).length ≤ length
      · simp only [hlen, if_true]
        constructor
        · omega
        · simp only [Bool.false_eq_true, false_iff]
          omega
      · simp only [hlen, if_false]
        constructor
        · simp only [List.length_append, List.length_take]
          have : "...".toList.length = 3 := by decide
          omega
        · simp only [true_iff]
          omega
    · constructor
      · by_cases h1 : 0 < pos - length / 2 <;>
          by_cases h2 : min (strip_tags content).length
              (pos + query.length + length / 2) < (strip_tags content).length <;>
          · simp only [h1, h2, if_true, if_false, List.length_append, List.length_take,
              List.length_drop]
            have h3 : "...".toList.length = 3 := by decide
            have h4 : (([] : List Char)).length = 0 := rfl
            omega
      · simp

/-! Keyword extraction, modelling `Search._extract_keywords`. -/

/-- Stop-word list hardcoded in `Search._extract_keywords`. -/
def stop_words : List (List Char) :=
  ["the", "be", "to", "of", "and", "a", "in", "that", "have"].map String.toList

/-- One step of frequency counting: `word_freq[word] = word_freq.get(word, 0) + 1`
on an association list that preserves dict insertion (first-seen) order. -/
def bump (acc : List (List Char × Nat)) (w : List Char) : List (List Char × Nat) :=
  match acc with
  | [] => [(w, 1)]
  | (x, n) :: rest => if x = w then (x, n + 1) :: rest else (x, n) :: bump rest w

/-- Frequency table of a word list in first-seen key order, modelling the
`word_freq` dict loop. -/
def countFreq (ws : List (List Char)) : List (List Char × Nat) :=
  ws.foldl bump []

/-- Stable insertion into a list sorted by descending count: the new pair
goes after every existing pair of greater or equal count, as Python's
stable `sorted(..., reverse=True)` keeps equal-count items in original
order. -/
def insDesc (x : List Char × Nat) : List (List Char × Nat) → List (List Char × Nat)
  | [] => [x]
  | y :: ys => if x.2 ≤ y.2 then y :: insDesc x ys else x :: y :: ys

/-- Stable descending sort by count, modelling
`sorted(word_freq.items(), key=lambda x: x[1], reverse=True)`. -/
def sortDesc (l : List (List Char × Nat)) : List (List Char × Nat) :=
  l.foldl (fun acc x => insDesc x acc) []

/-- Words of the text surviving the length and stop-word filters in
`Search._extract_keywords`. -/
def keywordWords (text : List Char) (min_length : Nat) : List (List Char) :=
  (splitWS (lowerStr (strip_tags text))).filter
    (fun w => decide (min_length ≤ w.length) && !stop_words.contains w)

/-- Frequency table of the surviving words (the `word_freq` dict). -/
def wordFreqs (text : List Char) (min_length : Nat) : List (List Char × Nat) :=
  countFreq (keywordWords text min_length)

/-- Descending-by-frequency stable sort of the frequency table. -/
def sortedFreqs (text : List Char) (min_length : Nat) : List (List Char × Nat) :=
  sortDesc (wordFreqs text min_length)

/-- Keyword extraction, modelling `Search._extract_keywords`: strip tags,
lowercase and split, filter by minimum length and stop words, count
frequencies, sort descending by frequency (stable), truncate and keep the
words. -/
def extract_keywords (text : List Char) (min_length max_keywords : Nat) : List (List Char) :=
  ((sortedFreqs text min_length).take max_keywords).map Prod.fst

/-! Facts about the stable descending sort and the frequency table. -/

lemma mem_insDesc (x p : List Char × Nat) :
    ∀ l, p ∈ insDesc x l → p = x ∨ p ∈ l := by
  intro l
  induction l with
  | nil => intro h; simp [insDesc] at h; exact Or.inl h
  | cons y ys ih =>
    intro h
    unfold insDesc at h
    split at h
    · rcases List.mem_cons.mp h with h1 | h1
      · exact Or.inr (by simp [h1])
      · rcases ih h1 with h2 | h2
        · exact Or.inl h2
        · exact Or.inr (List.mem_cons_of_mem _ h2)
    · rcases List.mem_cons.mp h with h1 | h1
      · exact Or.inl h1
      · exact Or.inr h1

lemma mem_sortDesc_fold (p : List Char × Nat) :
    ∀ (l acc : List (List Char × Nat)),
      p ∈ l.foldl (fun acc x => insDesc x acc) acc → p ∈ acc ∨ p ∈ l := by
  intro l
  induction l with
  | nil => intro acc h; exact Or.inl h
  | cons x xs ih =>
    intro acc h
    rcases ih (insDesc x acc) h with h1 | h1
    · rcases mem_insDesc x p acc h1 with h2 | h2
      · exact Or.inr (by simp [h2])
      · exact Or.inl h2
    · exact Or.inr (List.mem_cons_of_mem _ h1)

lemma mem_sortDesc (p : List Char × Nat) (l : List (List Char × Nat))
    (h : p ∈ sortDesc l) : p ∈ l := by
  rcases mem_sortDesc_fold p l [] h with h1 | h1
  · simp at h1
  · exact h1

lemma mem_bump_key (w : List Char) (p : List Char × Nat) :
    ∀ acc, p ∈ bump acc w → p.1 = w ∨ ∃ m, (p.1, m) ∈ acc := by
  intro acc
  induction acc with
  | nil =>
    intro h
    simp [bump] at h
    simp [h]
  | cons y ys ih =>
    intro h
    rcases y with ⟨x, n⟩
    unfold bump at h
    split at h
    · rename_i heq
      rcases List.mem_cons.mp h with h1 | h1
      · exact Or.inl (by simp [h1, heq])
      · exact Or.inr ⟨p.2, List.mem_cons_of_mem _ (by simpa using h1)⟩
    · rcases List.mem_cons.mp h with h1 | h1
      · exact Or.inr ⟨n, by simp [h1]⟩
      · rcases ih h1 with h2 | ⟨m, hm⟩
        · exact Or.inl h2
        · exact Or.inr ⟨m, List.mem_cons_of_mem _ hm⟩

lemma mem_countFreq_fold (p : List Char × Nat) :
    ∀ (ws : List (List Char)) (acc : List (List Char × Nat)),
      p ∈ ws.foldl bump acc → (∃ m, (p.1, m) ∈ acc) ∨ p.1 ∈ ws := by
  intro ws
  induction ws with
  | nil => intro acc h; exact Or.inl ⟨p.2, h⟩
  | cons w rest ih =>
    intro acc h
    rcases ih (bump acc w) h with ⟨m, hm⟩ | h1
    · rcases mem_bump_key w (p.1, m) acc hm with h2 | ⟨m2, hm2⟩
      · exact Or.inr (by simp at h2; simp [h2])
      · exact Or.inl ⟨m2, hm2⟩
    · exact Or.inr (List.mem_cons_of_mem _ h1)

lemma mem_countFreq (p : List Char × Nat) (ws : List (List Char))
    (h : p ∈ countFreq ws) : p.1 ∈ ws := by
  rcases mem_countFreq_fold p ws [] h with ⟨m, hm⟩ | h1
  · simp at hm
  · exact h1

lemma insDesc_sorted (x : List Char × Nat) :
    ∀ l, List.Pairwise (fun a b => b.2 ≤ a.2) l →
      List.Pairwise (fun a b => b.2 ≤ a.2) (insDesc x l) := by
  intro l
  induction l with
  | nil => intro _; simp [insDesc]
  | cons y ys ih =>
    intro h
    rcases List.pairwise_cons.mp h with ⟨hy, hys⟩
    unfold insDesc
    split
    · rename_i hc
      refine List.pairwise_cons.mpr ⟨?_, ih hys⟩
      intro b hb
      rcases mem_insDesc x b ys hb with h1 | h1
      · rw [h1]; exact hc
      · exact hy b h1
    · rename_i hc
      refine List.pairwise_cons.mpr ⟨?_, h⟩
      intro b hb
      rcases List.mem_cons.mp hb with h1 | h1
      · rw [h1]; omega
      · exact le_trans (hy b h1) (by omega)

lemma sortDesc_fold_sorted :
    ∀ (l acc : List (List Char × Nat)),
      List.Pairwise (fun a b => b.2 ≤ a.2) acc →
      List.Pairwise (fun a b => b.2 ≤ a.2) (l.foldl (fun acc x => insDesc x acc) acc) := by
  intro l
  induction l with
  | nil => intro acc h; exact h
  | cons x xs ih => intro acc h; exact ih (insDesc x acc) (insDesc_sorted x acc h)

lemma sortDesc_sorted (l : List (List Char × Nat)) :
    List.Pairwise (fun a b => b.2 ≤ a.2) (sortDesc l) :=
  sortDesc_fold_sorted l [] (by simp)

lemma filter_insDesc (n : Nat) (x : List Char × Nat) :
    ∀ l, List.Pairwise (fun a b => b.2 ≤ a.2) l →
      (insDesc x l).filter (fun p => p.2 == n) =
        if x.2 = n then l.filter (fun p => p.2 == n) ++ [x]
        else l.filter (fun p => p.2 == n) := by
  intro l
  induction l with
  | nil =>
    intro _
    by_cases hx : x.2 = n <;> simp [insDesc, List.filter_cons, hx]
  | cons y ys ih =>
    intro h
    rcases List.pairwise_cons.mp h with ⟨hy, hys⟩
    unfold insDesc
    split
    · rename_i hc
      by_cases hx : x.2 = n <;> by_cases hyn : y.2 = n <;>
        simp [List.filter_cons, hyn, ih hys, hx]
    · rename_i hc
      have hlt : y.2 < x.2 := by omega
      by_cases hx : x.2 = n
      · have hyn : ¬(y.2 = n) := by omega
        have hnil : ys.filter (fun p => p.2 == n) = [] := by
          rw [List.filter_eq_nil_iff]
          intro a ha
          have := hy a ha
          simp
          omega
        simp [List.filter_cons, hx, hyn, hnil]
      · simp [List.filter_cons, hx]

lemma sortDesc_fold_filter (n : Nat) :
    ∀ (l acc : List (List Char × Nat)),
      List.Pairwise (fun a b => b.2 ≤ a.2) acc →
      (l.foldl (fun acc x => insDesc x acc) acc).filter (fun p => p.2 == n) =
        acc.filter (fun p => p.2 == n) ++ l.filter (fun p => p.2 == n) := by
  intro l
  induction l with
  | nil => intro acc _; simp
  | cons x xs ih =>
    intro acc h
    have step := ih (insDesc x acc) (insDesc_sorted x acc h)
    rw [List.foldl_cons, step, filter_insDesc n x acc h]
    by_cases hx : x.2 = n <;> simp [List.filter_cons, hx]

lemma sortDesc_filter (n : Nat) (l : List (List Char × Nat)) :
    (sortDesc l).filter (fun p => p.2 == n) = l.filter (fun p => p.2 == n) := by
  have := sortDesc_fold_filter n l [] (by simp)
  simpa [sortDesc] using this

/-- C9: keyword extraction returns at most `max_keywords` terms, every
returned term has length at least `min_length` and lies outside the
stop-word set, the frequency table is sorted descending by frequency, and
the sort is stable: for each frequency value the order of terms equals
their first-seen order in the `word_freq` dict. -/
theorem extract_keywords_spec (text : List Char) (min_length max_keywords : Nat) :
    (extract_keywords text min_length max_keywords).length ≤ max_keywords ∧
    (∀ w ∈ extract_keywords text min_length max_keywords,
      min_length ≤ w.length ∧ w ∉ stop_words) ∧
    List.Pairwise (fun a b => b.2 ≤ a.2) (sortedFreqs text min_length) ∧
    (∀ n, (sortedFreqs text min_length).filter (fun p => p.2 == n) =
      (wordFreqs text min_length).filter (fun p => p.2 == n)) := by
  refine ⟨?_, ?_, sortDesc_sorted _, fun n => sortDesc_filter n _⟩
  · unfold extract_keywords
    rw [List.length_map]
    exact le_trans (List.length_take_le _ _) (by simp [List.length_take])
  · intro w hw
    unfold extract_keywords at hw
    rcases List.mem_map.mp hw with ⟨p, hp, hpw⟩
    have hp2 : p ∈ sortedFreqs text min_length := List.mem_of_mem_take hp
    have hp3 : p ∈ wordFreqs text min_length := mem_sortDesc p _ hp2
    have hp4 : p.1 ∈ keywordWords text min_length := mem_countFreq p _ hp3
    rcases List.mem_filter.mp hp4 with ⟨_, hcond⟩
    rw [Bool.and_eq_true] at hcond
    rcases hcond with ⟨h1, h2⟩
    subst hpw
    refine ⟨by simpa using h1, ?_⟩
    intro hmem
    rw [Bool.not_eq_true'] at h2
    have h3 : stop_words.elem p.1 = true := List.elem_eq_true_of_mem hmem
    rw [show stop_words.contains p.1 = stop_words.elem p.1 from rfl, h3] at h2
    cases h2

/-- Witness for C9 at the specification's own scenario. -/
theorem extract_keywords_witness :
    4 ≤ "python".toList.length ∧ "python".toList ∉ stop_words := by
  have h := extract_keywords_spec "Python Programming Python Tips Python Basics".toList 4 10
  exact h.2.1 "python".toList (by decide)

/-! The search operation `Search.search`.  Database rows are modelled as
records; the SQL `ilike f'%{query}%'` filter is containment of a segment
matching the pattern (case-insensitive, `_` matching any single
character — the normalized query cannot contain `%`). -/

/-- Post row with the fields `Search.search` reads. -/
structure Post where
  title : List Char
  content : List Char
  excerpt : List Char
  published : Bool
  created_at : Nat
deriving DecidableEq

/-- Page row with the fields `Search.search` reads. -/
structure Page where
  title : List Char
  content : List Char
  published : Bool
deriving DecidableEq

/-- Anchored match of an ILIKE pattern fragment (no `%`) against the
front of a text: `_` matches any character, other characters match
case-insensitively. -/
def segMatchesAt : List Char → List Char → Bool
  | [], _ => true
  | _ :: _, [] => false
  | c :: qs, d :: ts => (c = '_' || Char.toLower c = Char.toLower d) && segMatchesAt qs ts

/-- SQL `field ILIKE '%q%'` for a `%`-free fragment `q`: some suffix of
the text starts with a match of `q`. -/
def ilikeContains (q : List Char) : List Char → Bool
  | [] => segMatchesAt q []
  | d :: ts => segMatchesAt q (d :: ts) || ilikeContains q ts

/-- Lexicographic comparison of strings by character code, modelling SQL
`ORDER BY title`. -/
def ltCL : List Char → List Char → Bool
  | [], [] => false
  | [], _ :: _ => true
  | _ :: _, [] => false
  | a :: as, b :: bs => if a < b then true else if b < a then false else ltCL as bs

/-- Stable insertion: the new element goes after every existing element
that the order places before or equal to it. -/
def insStable {α : Type} (le : α → α → Bool) (x : α) : List α → List α
  | [] => [x]
  | y :: ys => if le y x then y :: insStable le x ys else x :: y :: ys

/-- Stable sort by the boolean order `le`. -/
def sortStable {α : Type} (le : α → α → Bool) (l : List α) : List α :=
  l.foldl (fun acc x => insStable le x acc) []

/-- Order of `Post.query.order_by(Post.created_at.desc())`. -/
def postLe (a b : Post) : Bool :=
  b.created_at ≤ a.created_at

/-- Order of `Page.query.order_by(Page.title)`. -/
def pageLe (a b : Page) : Bool :=
  ltCL a.title b.title || a.title = b.title

/-- Row filter for posts: visibility (`filter_by(published=True)` unless
drafts are included) and the three-field `or_` of ILIKE matches. -/
def postMatches (q : List Char) (include_drafts : Bool) (p : Post) : Bool :=
  (include_drafts || p.published) &&
    (ilikeContains q p.title || ilikeContains q p.content || ilikeContains q p.excerpt)

/-- Row filter for pages: visibility and the two-field `or_` of ILIKE
matches. -/
def pageMatches (q : List Char) (include_drafts : Bool) (pg : Page) : Bool :=
  (include_drafts || pg.published) &&
    (ilikeContains q pg.title || ilikeContains q pg.content)

/-- Python `if limit:` — applied only when `limit` is neither `None` nor
`0`. -/
def applyLimit {α : Type} (limit : Option Nat) (l : List α) : List α :=
  match limit with
  | none => l
  | some n => if n = 0 then l else l.take n

/-- The search operation, modelling `Search.search`: an empty (falsy) raw
query short-circuits to empty results; otherwise the query is normalized
and both collections are filtered, ordered and limited. -/
def search (posts : List Post) (pages : List Page) (query : List Char)
    (limit : Option Nat) (include_drafts : Bool) : List Post × List Page :=
  if query = [] then ([], [])
  else
    (applyLimit limit (sortStable postLe
        (posts.filter (postMatches (normalize_query query) include_drafts))),
      applyLimit limit (sortStable pageLe
        (pages.filter (pageMatches (normalize_query query) include_drafts))))

/-- Sample published post used in concrete search statements. -/
def cPost : Post :=
  ⟨"t".toList, "c".toList, "e".toList, true, 0⟩

/-- C2 (counterexample): the query `"!!!"` normalizes to the empty
string, yet search over a store holding one published post returns that
post instead of the claimed empty result set — the guard `if not query`
runs before normalization and `ilike '%%'` matches every row. -/
theorem search_empty_normalized_counterexample :
    normalize_query "!!!".toList = [] ∧
    search [cPost] [] "!!!".toList none false = ([cPost], []) := by
  constructor
  · decide
  · decide

lemma ilikeContains_nil (t : List Char) : ilikeContains [] t = true := by
  cases t with
  | nil => rfl
  | cons d ts => simp [ilikeContains, segMatchesAt]

/-- C2 (amended): the emptiness guard applies to the raw query before
normalization: an empty raw query yields empty result sets for both
categories, but a nonempty query whose normalized form is empty matches
every row passing the visibility filter (the `'%%'` pattern holds for
every field), so only visibility filtering, ordering and the limit
apply. -/
theorem search_empty_query_behavior :
    (∀ (posts : List Post) (pages : List Page) (limit : Option Nat) (drafts : Bool),
      search posts pages [] limit drafts = ([], [])) ∧
    (∀ (posts : List Post) (pages : List Page) (limit : Option Nat) (drafts : Bool)
      (query : List Char), query ≠ [] → normalize_query query = [] →
      search posts pages query limit drafts =
        (applyLimit limit (sortStable postLe
            (posts.filter (fun p => drafts || p.published))),
          applyLimit limit (sortStable pageLe
            (pages.filter (fun pg => drafts || pg.published))))) := by
  constructor
  · intro posts pages limit drafts
    simp [search]
  · intro posts pages limit drafts query hq hnorm
    unfold search
    rw [if_neg hq, hnorm]
    have hposts : posts.filter (postMatches [] drafts) =
        posts.filter (fun p => drafts || p.published) := by
      apply List.filter_congr
      intro p _
      simp [postMatches, ilikeContains_nil]
    have hpages : pages.filter (pageMatches [] drafts) =
        pages.filter (fun pg => drafts || pg.published) := by
      apply List.filter_congr
      intro pg _
      simp [pageMatches, ilikeContains_nil]
    rw [hposts, hpages]

/-- Witness for the amended C2 theorem at concrete inputs. -/
theorem search_empty_query_witness :
    search [cPost] [] [] none false = ([], []) ∧
    search [cPost] [] "!!!".toList none false =
      (applyLimit none (sortStable postLe
          ([cPost].filter (fun p => false || p.published))),
        applyLimit none (sortStable pageLe
          (([] : List Page).filter (fun pg => false || pg.published)))) := by
  constructor
  · exact search_empty_query_behavior.1 [cPost] [] none false
  · exact search_empty_query_behavior.2 [cPost] [] none false "!!!".toList
      (by decide) (by decide)

/-! Cache key derivation, modelling `Cache._make_cache_key`. -/

/-- Python `'_'.join(key_parts)`. -/
def joinParts : List (List Char) → List Char
  | [] => []
  | [p] => p
  | p :: q :: ps => p ++ '_' :: joinParts (q :: ps)

/-- Python tuple comparison on `(key, value)` string pairs, as used by
`sorted(kwargs.items())`. -/
def pairLe (a b : List Char × List Char) : Bool :=
  ltCL a.1 b.1 || (a.1 = b.1 && (ltCL a.2 b.2 || a.2 = b.2))

/-- Rendering of one keyword/ambient pair as the part `f"{key}:{value}"`. -/
def kwargPart (kv : List Char × List Char) : List Char :=
  kv.1 ++ ':' :: kv.2

/-- Rendered parts of the ambient request parameters: sorted pairs when
a request context is present (`if request:`), nothing otherwise. -/
def ambientParts (ambient : Option (List (List Char × List Char))) : List (List Char) :=
  match ambient with
  | none => []
  | some ps => (sortStable pairLe ps).map kwargPart

/-- Cache key derivation, modelling `Cache._make_cache_key` up to the
final `hashlib.md5(key.encode()).hexdigest()`: the digest is a
deterministic function of the joined string, so key equalities are
stated on the pre-hash string, and distinct pre-hash strings mean
distinct digests up to an MD5 collision.  Positional arguments are taken
already rendered by `str(arg)`; `ambient = none` models the absence of a
request context. -/
def make_cache_key (keyPref fname : List Char) (args : List (List Char))
    (kwargs : List (List Char × List Char))
    (ambient : Option (List (List Char × List Char))) : List Char :=
  joinParts ([keyPref, fname] ++ args ++ (sortStable pairLe kwargs).map kwargPart ++
    ambientParts ambient)

/-- C4 (counterexample): the argument lists `["a", "b"]` and `["a_b"]`
differ, yet both derive the same key: the `'_'.join` encoding is
ambiguous, so the derivation is not injective up to hash collision. -/
theorem make_cache_key_counterexample :
    make_cache_key "memo".toList "f".toList ["a".toList, "b".toList] [] none =
      make_cache_key "memo".toList "f".toList ["a_b".toList] [] none ∧
    ["a".toList, "b".toList] ≠ ["a_b".toList] := by
  constructor
  · decide
  · decide

lemma joinParts_cons (p : List Char) (L : List (List Char)) (h : L ≠ []) :
    joinParts (p :: L) = p ++ '_' :: joinParts L := by
  cases L with
  | nil => exact absurd rfl h
  | cons q ps => rfl

lemma joinParts_single_change :
    ∀ (pre : List (List Char)) (x y : List Char) (suf : List (List Char)),
      x ≠ y → joinParts (pre ++ x :: suf) ≠ joinParts (pre ++ y :: suf) := by
  intro pre
  induction pre with
  | nil =>
    intro x y suf hxy
    cases suf with
    | nil => simpa [joinParts] using hxy
    | cons s ss =>
      intro h
      simp only [List.nil_append] at h
      rw [joinParts_cons x (s :: ss) (by simp), joinParts_cons y (s :: ss) (by simp)] at h
      exact hxy (List.append_cancel_right h)
  | cons p pre ih =>
    intro x y suf hxy h
    rw [List.cons_append, List.cons_append,
      joinParts_cons p (pre ++ x :: suf) (by simp),
      joinParts_cons p (pre ++ y :: suf) (by simp)] at h
    have h2 := List.append_cancel_left h
    simp only [List.cons.injEq, true_and] at h2
    exact ih x y suf hxy h2

/-- C4 (amended): key derivation is deterministic — it is a function of
the `(prefix, function name, args, kwargs, ambient params)` tuple — and
replacing one positional argument by one with a different string
rendering, all other components unchanged, changes the pre-hash key
string (hence the digest, up to MD5 collision); but the encoding is not
injective: distinct argument tuples can collide through the ambiguous
`'_'.join`, as the counterexample shows. -/
theorem make_cache_key_deterministic_and_arg_sensitive :
    (∀ (kp f : List Char) (args : List (List Char))
      (kwargs : List (List Char × List Char))
      (amb : Option (List (List Char × List Char))),
      make_cache_key kp f args kwargs amb = make_cache_key kp f args kwargs amb) ∧
    (∀ (kp f : List Char) (pre : List (List Char)) (x y : List Char)
      (suf : List (List Char)) (kwargs : List (List Char × List Char))
      (amb : Option (List (List Char × List Char))), x ≠ y →
      make_cache_key kp f (pre ++ x :: suf) kwargs amb ≠
        make_cache_key kp f (pre ++ y :: suf) kwargs amb) := by
  constructor
  · intro kp f args kwargs amb
    rfl
  · intro kp f pre x y suf kwargs amb hxy
    unfold make_cache_key
    have hx : [kp, f] ++ (pre ++ x :: suf) ++ (sortStable pairLe kwargs).map kwargPart ++
        ambientParts amb =
        (kp :: f :: pre) ++ x :: (suf ++ ((sortStable pairLe kwargs).map kwargPart ++
          ambientParts amb)) := by
      simp
    have hy : [kp, f] ++ (pre ++ y :: suf) ++ (sortStable pairLe kwargs).map kwargPart ++
        ambientParts amb =
        (kp :: f :: pre) ++ y :: (suf ++ ((sortStable pairLe kwargs).map kwargPart ++
          ambientParts amb)) := by
      simp
    rw [hx, hy]
    exact joinParts_single_change (kp :: f :: pre) x y _ hxy

/-- Witness for the amended C4 theorem at concrete inputs. -/
theorem make_cache_key_witness :
    make_cache_key "memo".toList "f".toList ["a".toList] [] none ≠
      make_cache_key "memo".toList "f".toList ["b".toList] [] none := by
  have h := make_cache_key_deterministic_and_arg_sensitive.2 "memo".toList "f".toList []
    "a".toList "b".toList [] [] none (by decide)
  simpa using h

/-! Filesystem-backend cache store and pattern invalidation, modelling
`Cache.set`/`Cache.get`/`Cache.invalidate` (non-Redis branch).  Entries
are an association list from filenames to values; the filename of an
entry is its cache key string. -/

/-- Overwriting insertion, modelling `set` on the backend. -/
def setEntry {V : Type} (s : List (List Char × V)) (k : List Char) (v : V) :
    List (List Char × V) :=
  match s with
  | [] => [(k, v)]
  | (k2, v2) :: rest => if k2 = k then (k2, v) :: rest else (k2, v2) :: setEntry rest k v

/-- Lookup, modelling `get` on the backend (`none` for a missing file). -/
def getEntry {V : Type} (s : List (List Char × V)) (k : List Char) : Option V :=
  match s with
  | [] => none
  | (k2, v2) :: rest => if k2 = k then some v2 else getEntry rest k

/-- Pattern invalidation on the filesystem backend, modelling the
else-branch of `Cache.invalidate`: `os.remove` every file whose name
contains the pattern as a literal substring (`if pattern in filename`). -/
def invalidateStore {V : Type} (s : List (List Char × V)) (pat : List Char) :
    List (List Char × V) :=
  s.filter (fun kv => !(containsSub pat kv.1))

/-- Store of the specification's invalidation scenario. -/
def c5Store : List (List Char × Nat) :=
  setEntry (setEntry (setEntry [] "user:1:profile".toList 1) "user:1:posts".toList 2)
    "user:2:profile".toList 3

/-- C5 (counterexample): after invalidating the glob pattern
`user:1:*`, all three entries — including the two the claim requires to
be absent — are still present: the `in` check treats `*` literally, and
no stored key contains a literal `*`. -/
theorem invalidate_glob_counterexample :
    getEntry (invalidateStore c5Store "user:1:*".toList) "user:1:profile".toList = some 1 ∧
    getEntry (invalidateStore c5Store "user:1:*".toList) "user:1:posts".toList = some 2 ∧
    getEntry (invalidateStore c5Store "user:1:*".toList) "user:2:profile".toList = some 3 := by
  refine ⟨by decide, by decide, by decide⟩

lemma getEntry_filter {V : Type} (p : List Char → Bool) (k : List Char) :
    ∀ s : List (List Char × V),
      getEntry (s.filter (fun kv => p kv.1)) k =
        if p k = true then getEntry s k else none := by
  intro s
  induction s with
  | nil =>
    simp only [List.filter_nil, getEntry]
    split <;> rfl
  | cons kv rest ih =>
    rcases kv with ⟨k2, v2⟩
    by_cases hp : p k2 = true
    · rw [show ((k2, v2) :: rest).filter (fun kv => p kv.1) =
          (k2, v2) :: rest.filter (fun kv => p kv.1) by simp [List.filter_cons, hp]]
      by_cases hk : k2 = k
      · subst hk
        simp [getEntry, hp]
      · simp only [getEntry, hk, if_false, ih]
    · rw [show ((k2, v2) :: rest).filter (fun kv => p kv.1) =
          rest.filter (fun kv => p kv.1) by
        simp [List.filter_cons, Bool.eq_false_iff.mpr hp]]
      rw [ih]
      by_cases hk : k2 = k
      · subst hk
        simp [getEntry, hp]
      · simp [getEntry, hk]

/-- C5 (amended): the filesystem invalidator deletes exactly the stored
keys containing the pattern as a literal substring; with the literal
prefix `user:1:` in place of the glob `user:1:*`, the scenario holds:
the two `user:1:` keys become absent and `user:2:profile` survives. -/
theorem invalidate_contains_semantics :
    (∀ (V : Type) (s : List (List Char × V)) (pat k : List Char),
      getEntry (invalidateStore s pat) k =
        if containsSub pat k = true then none else getEntry s k) ∧
    (getEntry (invalidateStore c5Store "user:1:".toList) "user:1:profile".toList = none ∧
     getEntry (invalidateStore c5Store "user:1:".toList) "user:1:posts".toList = none ∧
     getEntry (invalidateStore c5Store "user:1:".toList) "user:2:profile".toList = some 3) := by
  constructor
  · intro V s pat k
    unfold invalidateStore
    rw [getEntry_filter (fun key => !(containsSub pat key)) k s]
    cases hc : containsSub pat k <;> simp [hc]
  · refine ⟨by decide, by decide, by decide⟩

/-! Memoization, modelling `Cache.memoize` (and the identically
structured `Cache.cached`). -/

/-- Error surfaced by an unreachable backend — the specification's
`BackendUnavailable`.  The backends the source delegates to report
failures either in-band (a `None` return, as the filesystem cache does)
or by raising; `Cache.get`/`Cache.set` forward the backend result or
exception verbatim. -/
inductive BackendError
  | unavailable
deriving DecidableEq

/-- Cache backend interface as seen through `Cache.get`/`Cache.set`:
both operations may raise. -/
structure Backend (V : Type) where
  get : List Char → Except BackendError (Option V)
  set : List Char → V → Except BackendError Bool

/-- One call of a `Cache.memoize`-wrapped function: look the key up,
return a non-None hit, otherwise call the function, store and return its
result.  The wrapper installs no exception handler, so a backend
exception propagates. -/
def memoize_call {V : Type} (b : Backend V) (key : List Char) (f : Unit → V) :
    Except BackendError V := do
  let rv ← b.get key
  match rv with
  | some v => pure v
  | none =>
    let r := f ()
    let _ ← b.set key r
    pure r

/-- Backend whose storage is unreachable and surfaces this by raising. -/
def downBackend : Backend Nat :=
  ⟨fun _ => Except.error BackendError.unavailable,
   fun _ _ => Except.error BackendError.unavailable⟩

/-- C6 (counterexample): when the backend `get` raises
`BackendUnavailable`, the memoized call propagates the error instead of
executing the wrapped function and returning its result: `memoize`
contains no error handling. -/
theorem memoize_backend_error_counterexample :
    memoize_call downBackend "k".toList (fun _ => 42) =
      Except.error BackendError.unavailable ∧
    memoize_call downBackend "k".toList (fun _ => 42) ≠ Except.ok 42 := by
  constructor
  · rfl
  · intro h
    cases h

/-- C6 (amended): when the backend signals the failure in-band — `get`
returns no value, as the filesystem backend does when storage is
unreachable — and `set` does not raise, the memoized call executes the
wrapped function and returns its result; only a raised backend exception
is propagated. -/
theorem memoize_falls_through_on_inband_miss (V : Type) (b : Backend V)
    (key : List Char) (f : Unit → V)
    (hget : b.get key = Except.ok none)
    (hset : ∃ r, b.set key (f ()) = Except.ok r) :
    memoize_call b key f = Except.ok (f ()) := by
  rcases hset with ⟨r, hr⟩
  unfold memoize_call
  rw [show (do
      let rv ← b.get key
      match rv with
      | some v => pure v
      | none =>
        let r := f ()
        let _ ← b.set key r
        pure r : Except BackendError V) =
    (b.get key).bind (fun rv =>
      match rv with
      | some v => pure v
      | none => (b.set key (f ())).bind (fun _ => pure (f ()))) from rfl]
  rw [hget]
  show (match (none : Option V) with
    | some v => pure v
    | none => (b.set key (f ())).bind (fun _ => pure (f ()))) = Except.ok (f ())
  rw [hr]
  rfl

/-- Backend reporting a plain miss. -/
def missBackend : Backend Nat :=
  ⟨fun _ => Except.ok none, fun _ _ => Except.ok true⟩

/-- Witness for the amended C6 theorem at a concrete backend. -/
theorem memoize_falls_through_witness :
    memoize_call missBackend "k".toList (fun _ => 42) = Except.ok 42 :=
  memoize_falls_through_on_inband_miss Nat missBackend "k".toList (fun _ => 42) rfl
    ⟨true, rfl⟩

/-! Store-level memoization for the `None`-result behaviour (C10):
stored values are Python values, where Lean's `none` models Python's
`None`. -/

/-- Backend read as `Cache.get` sees it: a missing entry and a stored
`None` both come back as `None`. -/
def getPy {V : Type} (s : List (List Char × Option V)) (k : List Char) : Option V :=
  match getEntry s k with
  | none => none
  | some pv => pv

/-- Result of one memoized call at store level: the returned value, the
store afterwards, and whether the wrapped function was invoked. -/
structure MemoResult (V : Type) where
  value : Option V
  store : List (List Char × Option V)
  called : Bool
deriving DecidableEq

/-- One call of a wrapped function at store level, modelling the shared
body of `Cache.memoize` and `Cache.cached`: `rv = self.get(cache_key)`,
return `rv` if it `is not None`, otherwise call `f`, store and return
its result. -/
def memoize_step {V : Type} (s : List (List Char × Option V)) (key : List Char)
    (f : Unit → Option V) : MemoResult V :=
  match getPy s key with
  | some v => ⟨some v, s, false⟩
  | none => ⟨f (), setEntry s key (f ()), true⟩

lemma getEntry_setEntry {V : Type} (k : List Char) (v : V) :
    ∀ s, getEntry (setEntry s k v) k = some v := by
  intro s
  induction s with
  | nil => simp [setEntry, getEntry]
  | cons kv rest ih =>
    rcases kv with ⟨k2, v2⟩
    by_cases hk : k2 = k
    · subst hk
      simp [setEntry, getEntry]
    · simp [setEntry, getEntry, hk, ih]

/-- C10: a wrapped function whose result is `None` is never served from
cache: whenever the lookup comes back `None` the wrapped function runs
and the entry is rewritten, and after it stored `None` the next call
runs the function again — a stored `None` is indistinguishable from a
miss; conversely a non-None cached value is returned without invoking
the function. -/
theorem memoized_none_reexecutes (V : Type) (s : List (List Char × Option V))
    (key : List Char) (f : Unit → Option V) :
    (getPy s key = none →
      (memoize_step s key f).called = true ∧
      (memoize_step s key f).store = setEntry s key (f ()) ∧
      (f () = none → (memoize_step (memoize_step s key f).store key f).called = true)) ∧
    (∀ v, getPy s key = some v → memoize_step s key f = ⟨some v, s, false⟩) := by
  constructor
  · intro hmiss
    have hstep : memoize_step s key f = ⟨f (), setEntry s key (f ()), true⟩ := by
      unfold memoize_step
      rw [hmiss]
    refine ⟨by rw [hstep], by rw [hstep], ?_⟩
    intro hf
    rw [hstep]
    have hagain : getPy (setEntry s key (f ())) key = none := by
      unfold getPy
      rw [getEntry_setEntry key (f ()) s, hf]
    unfold memoize_step
    rw [hagain]
  · intro v hhit
    unfold memoize_step
    rw [hhit]

/-- Witness for C10 at concrete stores: a first call on the empty store
executes the function, a second call after the stored `None` executes it
again, and a non-None cached value is served without a call. -/
theorem memoized_none_witness :
    (memoize_step ([] : List (List Char × Option Nat)) "k".toList (fun _ => none)).called =
      true ∧
    (memoize_step
      (memoize_step ([] : List (List Char × Option Nat)) "k".toList
        (fun _ => none)).store "k".toList (fun _ => none)).called = true ∧
    memoize_step [("k".toList, some 3)] "k".toList (fun _ => some 5) =
      ⟨some 3, [("k".toList, some 3)], false⟩ := by
  have h1 := memoized_none_reexecutes Nat [] "k".toList (fun _ => none)
  have h2 := memoized_none_reexecutes Nat [("k".toList, some 3)] "k".toList (fun _ => some 5)
  exact ⟨(h1.1 rfl).1, (h1.1 rfl).2.2 rfl, h2.2 3 rfl⟩

end Webbly
